import Mathlib

/-!
# Verification of the CV content-transformation pipeline

A shallow embedding, in Lean 4, of the core content-transformation pipeline
of `update_cv.py`: LaTeX escaping, rich-text (inline span) rendering,
the "For Resume" region filter, the block-to-LaTeX converter, and the
date-override parsing and entry sorting.  Python dictionaries with optional
keys are modelled with `Option`-valued fields; code paths that raise an
exception in Python (`KeyError`, `AttributeError`) are modelled by functions
returning `Option`/`none`.  Python strings are modelled by Lean `String`
(ASCII-faithful; `str.lower`, `str.strip`, `str.split` are modelled by
`String.toLower`, `String.trim` and whitespace splitting).
-/

namespace UpdateCV

/-- Split a character list at the first occurrence of `pat`, returning the
characters before the match and the characters after it (Python
`s.split(pat, 1)` when the result has two parts; `none` when `pat` does not
occur).  Used to model Python's `in` test and one-shot `split`. -/
def splitFirst : List Char → List Char → Option (List Char × List Char)
  | [], pat => if pat.isEmpty then some ([], []) else none
  | c :: rest, pat =>
    if pat.isPrefixOf (c :: rest) then some ([], (c :: rest).drop pat.length)
    else (splitFirst rest pat).map (fun p => (c :: p.1, p.2))

/-- Python `pat in s` (substring containment). -/
def hasSub (s pat : String) : Bool :=
  (splitFirst s.toList pat.toList).isSome

/-- Python `s.split(pat, 1)` when it actually splits: the text before the
first occurrence of `pat` and everything after it. -/
def splitOnceStr (s pat : String) : Option (String × String) :=
  (splitFirst s.toList pat.toList).map (fun p => (String.mk p.1, String.mk p.2))

/-- Python `s.lower()` (ASCII letters). -/
def toLowerStr (s : String) : String :=
  String.mk (s.toList.map Char.toLower)

/-- Python `s.strip()`: drop leading and trailing whitespace. -/
def trimStr (s : String) : String :=
  String.mk (((s.toList.dropWhile Char.isWhitespace).reverse.dropWhile Char.isWhitespace).reverse)

/-- Split at every (non-overlapping, leftmost-first) occurrence of the
nonempty pattern `p0 :: ps`, keeping empty pieces.  The `fuel` argument
(always called with the length of the list, which bounds the recursion
depth) only makes the recursion structural. -/
def splitOnFuel (p0 : Char) (ps : List Char) : Nat → List Char → List (List Char)
  | 0, l => [l]
  | _ + 1, [] => [[]]
  | fuel + 1, c :: rest =>
    if (p0 :: ps).isPrefixOf (c :: rest) then
      [] :: splitOnFuel p0 ps fuel (rest.drop ps.length)
    else (splitOnFuel p0 ps fuel rest).modifyHead (fun piece => c :: piece)

/-- Python `s.split(pat)` for a nonempty separator (the pipeline only
splits on `","`). -/
def splitOnStr (s pat : String) : List String :=
  match pat.toList with
  | [] => [s]
  | p0 :: ps => (splitOnFuel p0 ps s.toList.length s.toList).map String.mk

/-- Python `s.replace(pat, sub)` for a nonempty pattern (the pipeline only
replaces single dash characters): equivalently, join the `pat`-split pieces
of `s` with `sub`. -/
def replaceStr (s pat sub : String) : String :=
  match pat.toList with
  | [] => s
  | p0 :: ps =>
    String.mk (List.intercalate sub.toList (splitOnFuel p0 ps s.toList.length s.toList))

/-- Split at every character satisfying `p`, keeping empty pieces. -/
def splitPred (p : Char → Bool) : List Char → List (List Char)
  | [] => [[]]
  | c :: rest =>
    if p c then [] :: splitPred p rest
    else (splitPred p rest).modifyHead (fun piece => c :: piece)

/-- Python `s.split()`: split on whitespace, discarding empty pieces. -/
def splitWs (s : String) : List String :=
  ((splitPred Char.isWhitespace s.toList).map String.mk).filter (fun t => t ≠ "")

/-- Digit run accepted by Python `int`: decimal digits with single
underscores allowed between digits (Python numeric-literal grouping). -/
def pyDigits : List Char → Option Nat
  | [] => none
  | c :: rest =>
    if c.isDigit then
      let rec go (acc : Nat) : List Char → Option Nat
        | [] => some acc
        | '_' :: d :: rest => if d.isDigit then go (acc * 10 + (d.toNat - 48)) rest else none
        | '_' :: [] => none
        | d :: rest => if d.isDigit then go (acc * 10 + (d.toNat - 48)) rest else none
      go (c.toNat - 48) rest
    else none

/-- Python `int` applied to a token with no surrounding whitespace: an
optional single sign followed by a digit run. -/
def pyInt (s : String) : Option Int :=
  match s.toList with
  | '+' :: rest => (pyDigits rest).map (fun n => (n : Int))
  | '-' :: rest => (pyDigits rest).map (fun n => -(n : Int))
  | l => (pyDigits l).map (fun n => (n : Int))

/-- Lexicographic `<` on `(year, month)` pairs: Python's tuple comparison,
as used by `min`/`max`/`sorted` over date keys. -/
def dateLt (a b : Int × Int) : Bool :=
  decide (a.1 < b.1) || (decide (a.1 = b.1) && decide (a.2 < b.2))

/-- Python `min(lst, key=key)` on the nonempty list `x :: xs`: iterate,
replacing the current best only on a strictly smaller key, so the first
element attaining the minimal key is returned. -/
def pyMin (key : String → Int × Int) (x : String) : List String → String
  | [] => x
  | y :: ys => pyMin key (if dateLt (key y) (key x) then y else x) ys

/-- Python `max(lst, key=key)` on the nonempty list `x :: xs`: iterate,
replacing the current best only on a strictly larger key, so the first
element attaining the maximal key is returned. -/
def pyMax (key : String → Int × Int) (x : String) : List String → String
  | [] => x
  | y :: ys => pyMax key (if dateLt (key x) (key y) then y else x) ys

/-- The fixed 12-entry month abbreviation table `MONTHS`. -/
def MONTHS : List String :=
  ["Jan", "Feb", "Mar", "Apr", "May", "Jun", "Jul", "Aug", "Sep", "Oct", "Nov", "Dec"]

/-- Model of `parse_date_for_sorting(date_str)`: `(9999, 12)` for a falsy (empty)
string or the literal `"present"` in any case; for a two-token string whose
second token is an `int`, the pair `(year, month)` where `month` is the
1-based index in `MONTHS` of the first token, or `0` when the first token is
not a month abbreviation; `(0, 0)` for everything else. -/
def parse_date_for_sorting (date_str : String) : Int × Int :=
  if date_str = "" ∨ toLowerStr date_str = "present" then (9999, 12)
  else
    match splitWs date_str with
    | [month_name, year_str] =>
      match pyInt year_str with
      | some year =>
        (year, if month_name ∈ MONTHS then (MONTHS.indexOf month_name : Int) + 1 else 0)
      | none => (0, 0)
    | _ => (0, 0)

/-- Normalization of the two recognized dash variants (em dash, en dash)
to the canonical `"--"` separator. -/
def normalizeDashes (t : String) : String :=
  replaceStr (replaceStr t "—" "--") "–" "--"

/-- The comma-separated pieces of the normalized override text, trimmed. -/
def overrideRanges (t : String) : List String :=
  (splitOnStr (normalizeDashes t) ",").map trimStr

/-- The `(start, end)` pairs obtained by splitting each range once on
`" -- "`; ranges lacking the separator are discarded.  This mirrors the
parallel `start_dates` / `end_dates` accumulation in `parse_date_override`. -/
def overridePairs (t : String) : List (String × String) :=
  (overrideRanges t).filterMap (fun r => splitOnceStr r " -- ")

/-- The trimmed start parts of the matched ranges (`start_dates`). -/
def overrideStarts (t : String) : List String :=
  (overridePairs t).map (fun p => trimStr p.1)

/-- The trimmed end parts of the matched ranges (`end_dates`). -/
def overrideEnds (t : String) : List String :=
  (overridePairs t).map (fun p => trimStr p.2)

/-- The end parts that are not the literal `"present"` (case-insensitive):
`end_dates_no_present`. -/
def overrideConcreteEnds (t : String) : List String :=
  (overrideEnds t).filter (fun d => toLowerStr d ≠ "present")

/-- Model of `parse_date_override(override_text)`: normalize dashes; when the text
has a comma and at least one comma-piece contains `" -- "`, return the
earliest start (`min` by date key) and either the latest non-"present" end
(`max` by date key) or `"Present"` when every end is "present"; otherwise
split once on `" -- "` when present; otherwise the whole trimmed text is the
start and the end is `none`. -/
def parse_date_override (override_text : String) : Option String × Option String :=
  let normalized_text := normalizeDashes override_text
  let multi : Option (Option String × Option String) :=
    if hasSub normalized_text "," then
      match overrideStarts override_text, overrideEnds override_text with
      | s0 :: ss, _ :: _ =>
        let earliest_start := pyMin parse_date_for_sorting s0 ss
        let latest_end :=
          match overrideConcreteEnds override_text with
          | n0 :: ns => pyMax parse_date_for_sorting n0 ns
          | [] => "Present"
        some (some earliest_start, some latest_end)
      | _, _ => none
    else none
  match multi with
  | some r => r
  | none =>
    match splitOnceStr normalized_text " -- " with
    | some (a, b) => (some (trimStr a), some (trimStr b))
    | none => (some (trimStr normalized_text), none)

/-- Model of `get_latest_end_date_from_override(override_text)`: the `(year, month)`
sort key of the latest end date of a date-override string, re-derived with
the same multi-range/"present" logic as `parse_date_override`. -/
def get_latest_end_date_from_override (override_text : String) : Int × Int :=
  if override_text = "" then (0, 0)
  else
    let normalized_text := normalizeDashes override_text
    let multi : Option (Int × Int) :=
      if hasSub normalized_text "," then
        match overrideEnds override_text with
        | _ :: _ =>
          match overrideConcreteEnds override_text with
          | n0 :: ns => some (parse_date_for_sorting (pyMax parse_date_for_sorting n0 ns))
          | [] => some (9999, 12)
        | [] => none
      else none
    match multi with
    | some k => k
    | none =>
      match splitOnceStr normalized_text " -- " with
      | some (_, b) => parse_date_for_sorting (trimStr b)
      | none => parse_date_for_sorting (trimStr normalized_text)

/-- A CV entry record as built by `fetch_notion_data` (or reloaded from the
cache).  Optional string fields model dict values that may be `None`. -/
structure Entry where
  name : String
  organization : String
  location : String
  entryType : String
  start_date : Option String
  end_date : Option String
  date_display : Option String
  is_visible : Bool
  body_latex : String
deriving DecidableEq, Repr

/-- Python truthiness of an optional string (`None` and `""` are falsy). -/
def strTruthy : Option String → Bool
  | none => false
  | some s => s ≠ ""

/-- Python `entry.get("end_date") or entry.get("start_date")`: Python `or` over
optional strings, where `None` and `""` are falsy. -/
def orTruthy (a b : Option String) : Option String :=
  if strTruthy a then a else b

/-- Model of `get_sort_date(entry)`: the sort key used by `sort_entries_by_date`.
A truthy `date_display` is resolved through
`get_latest_end_date_from_override`; otherwise the first truthy of
`end_date` / `start_date` is parsed, and `(0, 0)` is used when neither is
truthy. -/
def get_sort_date (entry : Entry) : Int × Int :=
  match entry.date_display with
  | some dd =>
    if dd ≠ "" then get_latest_end_date_from_override dd
    else
      match orTruthy entry.end_date entry.start_date with
      | some s => if s = "" then (0, 0) else parse_date_for_sorting s
      | none => (0, 0)
  | none =>
    match orTruthy entry.end_date entry.start_date with
    | some s => if s = "" then (0, 0) else parse_date_for_sorting s
    | none => (0, 0)

/-- Stable insertion of `x` into `l`: `x` goes in front of the first
element `y` with `le x y`. -/
def insertStable (le : Entry → Entry → Bool) (x : Entry) : List Entry → List Entry
  | [] => [x]
  | y :: ys => if le x y then x :: y :: ys else y :: insertStable le x ys

/-- Stable sort with respect to the total comparison `le` (insertion sort):
the extensional behaviour of Python's stable `sorted`. -/
def stableSort (le : Entry → Entry → Bool) : List Entry → List Entry
  | [] => []
  | x :: xs => insertStable le x (stableSort le xs)

/-- The descending comparison used by
`sorted(entries, key=get_sort_date, reverse=True)`: `a` may stay before `b`
unless its key is strictly smaller. -/
def entryGe (a b : Entry) : Bool :=
  ! dateLt (get_sort_date a) (get_sort_date b)

/-- Model of `sort_entries_by_date(entries)`: Python's
`sorted(entries, key=get_sort_date, reverse=True)` — a stable sort,
descending by `get_sort_date`. -/
def sort_entries_by_date (entries : List Entry) : List Entry :=
  stableSort entryGe entries

/-- The `LATEX_SPECIALS` table as a per-character translation; characters
not in the table pass through unchanged.  (Literal braces in the escape
sequences are written `\x7b` / `\x7d`.) -/
def latexSpecial (c : Char) : String :=
  if c = '\\' then "\\textbackslash\x7b\x7d"
  else if c = '\x7b' then "\\\x7b"
  else if c = '\x7d' then "\\\x7d"
  else if c = '$' then "\\$"
  else if c = '&' then "\\&"
  else if c = '#' then "\\#"
  else if c = '%' then "\\%"
  else if c = '_' then "\\_"
  else if c = '~' then "\\textasciitilde\x7b\x7d"
  else if c = '^' then "\\textasciicircum\x7b\x7d"
  else String.singleton c

/-- Model of `latex_escape(text)`: replace each LaTeX-special character by its
escape sequence, character by character, in order. -/
def latex_escape (text : String) : String :=
  String.join (text.toList.map latexSpecial)

/-- The annotation set of a Notion rich-text object (all default false). -/
structure Annotations where
  bold : Bool
  italic : Bool
  underline : Bool
  strikethrough : Bool
  code : Bool
deriving DecidableEq

/-- A Notion rich-text object: plain text, an optional annotations dict,
and an optional link target (`href`, where Python treats `None` and `""`
as "no link"). -/
structure Span where
  plain_text : String
  annotations : Option Annotations
  href : Option String
deriving DecidableEq

/-- The annotation set used when the `annotations` key is absent
(`rt.get("annotations") or {}`). -/
def noAnnotations : Annotations :=
  ⟨false, false, false, false, false⟩

/-- Rendering of a single rich-text object: escape the text, then apply
`href`, `code`, `bold`, `italic`, `underline`, `strikethrough` wraps in
that order (each application wraps around the previous result). -/
def spanToLatex (rt : Span) : String :=
  let t := latex_escape rt.plain_text
  let t :=
    match rt.href with
    | some h => if h ≠ "" then "\\href\x7b" ++ h ++ "\x7d\x7b" ++ t ++ "\x7d" else t
    | none => t
  let ann := rt.annotations.getD noAnnotations
  let t := if ann.code then "\\texttt\x7b" ++ t ++ "\x7d" else t
  let t := if ann.bold then "\\textbf\x7b" ++ t ++ "\x7d" else t
  let t := if ann.italic then "\\textit\x7b" ++ t ++ "\x7d" else t
  let t := if ann.underline then "\\uline\x7b" ++ t ++ "\x7d" else t
  let t := if ann.strikethrough then "\\sout\x7b" ++ t ++ "\x7d" else t
  t

/-- Model of `rt_to_latex(rich_text)`: concatenation of the independently rendered
rich-text objects. -/
def rt_to_latex (rich_text : List Span) : String :=
  String.join (rich_text.map spanToLatex)

/-- The kind-specific payload dict of a block (`b[b["type"]]`), with the
optional keys the pipeline reads. -/
structure Payload where
  rich_text : Option (List Span)
  expression : Option String
deriving DecidableEq

/-- A Notion block: an optional `type` tag, the payload dicts keyed by
block kind, the `has_children` flag, and the child blocks (materialized;
the on-demand fetch by block id is the external collaborator's job). -/
inductive Block where
  | mk (type? : Option String) (payloads : List (String × Payload))
      (has_children : Bool) (children : List Block)

/-- The `type` tag of a block (`b.get("type")`). -/
def Block.type? : Block → Option String
  | .mk t _ _ _ => t

/-- The payload dicts of a block. -/
def Block.payloads : Block → List (String × Payload)
  | .mk _ pls _ _ => pls

/-- The `has_children` flag of a block. -/
def Block.has_children : Block → Bool
  | .mk _ _ hc _ => hc

/-- The child blocks of a block. -/
def Block.children : Block → List Block
  | .mk _ _ _ ch => ch

/-- Dict lookup `b[key]` for the payload of a block: `none` models a
`KeyError`. -/
def Block.payload (b : Block) (key : String) : Option Payload :=
  (b.payloads.find? (fun kv => kv.1 = key)).map (fun kv => kv.2)

/-- One pass of `filter_for_resume_region` with the loop state
(`in_resume`, `found_for_resume`).  A `heading_1` block is recognized as a
sentinel by the trimmed, lowercased `plain_text` of the **first** rich-text
object; "for resume" updates the state and is dropped, "not for resume"
stops the loop.  `none` models the `KeyError` raised when a `heading_1`
block has no payload dict. -/
def filterAux (in_resume found_for_resume : Bool) : List Block → Option (List Block)
  | [] => some []
  | b :: l =>
    let ordinary : Option (List Block) :=
      if !found_for_resume || in_resume then
        (filterAux in_resume found_for_resume l).map (fun rest => b :: rest)
      else filterAux in_resume found_for_resume l
    match b.type? with
    | some tp =>
      if tp = "heading_1" then
        match b.payload "heading_1" with
        | none => none
        | some pl =>
          let text_plain :=
            match pl.rich_text with
            | some (s0 :: _) => trimStr s0.plain_text
            | _ => ""
          if toLowerStr text_plain = "for resume" then filterAux true true l
          else if toLowerStr text_plain = "not for resume" then some []
          else ordinary
      else ordinary
    | none => ordinary

/-- Model of `filter_for_resume_region(blocks)`: start inclusive
(`in_resume = True`, `found_for_resume = False`). -/
def filter_for_resume_region (blocks : List Block) : Option (List Block) :=
  filterAux true false blocks

/-- Python `"\n".join(lines)`. -/
def joinNl : List String → String
  | [] => ""
  | [x] => x
  | x :: xs => x ++ "\n" ++ joinNl xs

/-- Does this block kind belong to a list run? -/
def isListKind (tp : String) : Bool :=
  tp = "bulleted_list_item" || tp = "numbered_list_item"

/-- The list environment for a list kind. -/
def envOf (tp : String) : String :=
  if tp = "bulleted_list_item" then "itemize" else "enumerate"

/-- Is this block a list item (`c.get("type") in (...)`)? -/
def Block.isListItem (c : Block) : Bool :=
  c.type? = some "bulleted_list_item" || c.type? = some "numbered_list_item"

/-- End of a list run in `convert_blocks_to_latex`: in `"items"` mode the
rendered items stand alone; otherwise they are wrapped in the list
environment of the run's kind. -/
def finishRun (tp mode : String) (acc : List String) : List String :=
  if mode = "items" then acc
  else ("\\begin\x7b" ++ envOf tp ++ "\x7d") :: (acc ++ ["\\end\x7b" ++ envOf tp ++ "\x7d"])

mutual

/-- The `convert_blocks_to_latex` loop body, producing the `out` list of
line units.  `none` models an exception: a missing `type` tag
(`AttributeError` on `tp.startswith`) or a missing payload dict
(`KeyError` on `b[tp]`). -/
def convertBlocks : List Block → String → Option (List String)
  | [], _ => some []
  | b :: rest, mode =>
    match b.type? with
    | none => none
    | some tp =>
      if tp = "paragraph" ∨ tp = "quote" ∨ tp = "equation" ∨ tp = "code" then
        match b.payload tp with
        | none => none
        | some pl =>
          let text :=
            if tp = "paragraph" then rt_to_latex (pl.rich_text.getD [])
            else if tp = "quote" then
              "\\begin\x7bquote\x7d" ++ rt_to_latex (pl.rich_text.getD []) ++ "\\end\x7bquote\x7d"
            else if tp = "equation" then "$ " ++ latex_escape (pl.expression.getD "") ++ " $"
            else "\\begin\x7bverbatim\x7d\n" ++ rt_to_latex (pl.rich_text.getD []) ++
              "\n\\end\x7bverbatim\x7d"
          let unit : List String :=
            if trimStr text ≠ "" then [if mode = "items" then "\\item " ++ text else text] else []
          (convertBlocks rest mode).map (fun out => unit ++ out)
      else if isListKind tp then
        match renderItem b tp (if mode = "items" then "items" else "paragraphs") with
        | none => none
        | some first => goRun tp mode [first] rest
      else
        -- headings and unknown kinds are skipped (tp is a string here,
        -- so `tp.startswith` cannot fail)
        convertBlocks rest mode
termination_by l _ => (sizeOf l, 0)

/-- The inner run loop: consume consecutive blocks of the identical list
kind `tp`, rendering each; on the first non-matching block close the run
and hand the remaining list back to `convertBlocks`. -/
def goRun (tp mode : String) (acc : List String) : List Block → Option (List String)
  | [] => some (finishRun tp mode acc)
  | c :: cs =>
    if c.type? = some tp then
      match renderItem c tp (if mode = "items" then "items" else "paragraphs") with
      | none => none
      | some s => goRun tp mode (acc ++ [s]) cs
    else (convertBlocks (c :: cs) mode).map (fun out => finishRun tp mode acc ++ out)
termination_by l => (sizeOf l, 1)

/-- Model of `_render_list_block_item(block, list_type, mode)`: the item's own
text, followed by a nested list environment when its children contain
list items, or by paragraph-rendered children otherwise. -/
def renderItem : Block → String → String → Option String
  | .mk t pls hc ch, list_type, mode =>
    match (Block.mk t pls hc ch).payload list_type with
    | none => none
    | some payload =>
      let body := "\\item " ++ rt_to_latex (payload.rich_text.getD [])
      if hc then
        if ch.isEmpty then some body
        else
          match ch.find? Block.isListItem with
          | some c0 =>
            match renderChildItems mode ch with
            | none => none
            | some inner =>
              some (body ++ "\n" ++
                joinNl (("\\begin\x7b" ++ envOf (c0.type?.getD "") ++ "\x7d") ::
                  (inner ++ ["\\end\x7b" ++ envOf (c0.type?.getD "") ++ "\x7d"])))
          | none =>
            match convertBlocks ch (if mode = "items" then "paragraphs" else mode) with
            | none => none
            | some para =>
              let paraS := joinNl para
              if trimStr paraS ≠ "" then some (body ++ "\n" ++ paraS) else some body
      else some body
termination_by b _ _ => (sizeOf b, 0)

/-- Render the list-item children of a block (non-list children among
them are skipped), each with its own `type` as `list_type`. -/
def renderChildItems (mode : String) : List Block → Option (List String)
  | [] => some []
  | c :: cs =>
    if c.isListItem then
      match renderItem c (c.type?.getD "") mode with
      | none => none
      | some s => (renderChildItems mode cs).map (fun out => s :: out)
    else renderChildItems mode cs
termination_by l => (sizeOf l, 0)

end

/-- Model of `convert_blocks_to_latex(blocks, mode)`: the joined line units, or
`none` when the Python code would raise. -/
def convert_blocks_to_latex (blocks : List Block) (mode : String) : Option String :=
  (convertBlocks blocks mode).map joinNl

/-- The block kinds whose payload dict is accessed by the converter. -/
def payloadKinds : List String :=
  ["paragraph", "quote", "equation", "code", "bulleted_list_item", "numbered_list_item"]

mutual

/-- Well-shapedness of a block for the converter: the `type` tag is
present, the payload dict exists for the kinds that need one, and the
children are recursively well-shaped. -/
def blockWF : Block → Bool
  | .mk t pls _ ch =>
    (match t with
     | none => false
     | some tp => !(payloadKinds.contains tp) || (pls.find? (fun kv => kv.1 = tp)).isSome)
    && blocksWF ch

/-- Well-shapedness of every block in a list. -/
def blocksWF : List Block → Bool
  | [] => true
  | b :: l => blockWF b && blocksWF l

end

/-- Gregorian leap year, as validated by `datetime`. -/
def isLeap (y : Nat) : Bool :=
  (y % 4 = 0 && y % 100 ≠ 0) || y % 400 = 0

/-- Days in a month, as validated by `datetime`. -/
def daysInMonth (y m : Nat) : Nat :=
  if m = 2 then (if isLeap y then 29 else 28)
  else if m = 4 ∨ m = 6 ∨ m = 9 ∨ m = 11 then 30
  else 31

/-- The digit value of a character (only used on decimal digits). -/
def digitVal (c : Char) : Nat := c.toNat - 48

/-- The month and year accepted by `datetime.fromisoformat`: a valid
`YYYY-MM-DD` calendar date, optionally followed by a separator character
and a time of day.  (The time-of-day suffix is checked only for shape
`HH:MM...`; no claim depends on the fallback branch of `fmt_date`, which
is the only consumer.) -/
def fromisoformatMY (l : List Char) : Option (Nat × Nat) :=
  match l with
  | y1 :: y2 :: y3 :: y4 :: '-' :: m1 :: m2 :: '-' :: d1 :: d2 :: rest =>
    if (([y1, y2, y3, y4, m1, m2, d1, d2]).all Char.isDigit) then
      let y := ((digitVal y1 * 10 + digitVal y2) * 10 + digitVal y3) * 10 + digitVal y4
      let m := digitVal m1 * 10 + digitVal m2
      let d := digitVal d1 * 10 + digitVal d2
      let timeOk :=
        match rest with
        | [] => true
        | _ :: h1 :: h2 :: ':' :: mi1 :: mi2 :: _ =>
          ([h1, h2, mi1, mi2]).all Char.isDigit &&
            digitVal h1 * 10 + digitVal h2 < 24 && digitVal mi1 * 10 + digitVal mi2 < 60
        | _ => false
      if 1 ≤ y ∧ 1 ≤ m ∧ m ≤ 12 ∧ 1 ≤ d ∧ d ≤ daysInMonth y m ∧ timeOk = true then some (y, m)
      else none
    else none
  | _ => none

/-- Model of `fmt_date(d)`: format an ISO date (or date-time) string as
`"MonthAbbrev Year"`; a falsy input yields `None`; an unparsable string is
returned as-is. -/
def fmt_date (d : Option String) : Option String :=
  match d with
  | none => none
  | some s =>
    if s = "" then none
    else
      match fromisoformatMY s.toList with
      | some (y, m) => some (MONTHS.getD (m - 1) "" ++ " " ++ toString y)
      | none => some s

/-- The `"Date Override"` property as read by `get_date_range`: a `text`
property (with its `content`), a `rich_text` property (with the
`plain_text` of its spans), or a property of any other type. -/
inductive OverrideProp where
  | text (content : String)
  | rich_text (texts : List String)
  | otherType
deriving DecidableEq

/-- The date-related properties of a record: the optional
`"Date Override"` property and the optional `date.start` strings of the
`"Start Date"` / `"End Date"` properties (`none` covers a missing
property, a property of the wrong type, and a falsy `date` value alike,
all of which make the same guard fail). -/
structure DateProps where
  dateOverride : Option OverrideProp
  startDate : Option String
  endDate : Option String
deriving DecidableEq

/-- The override text extracted by `get_date_range`, when the property
exists with type `text` or `rich_text`. -/
def overrideText : OverrideProp → Option String
  | .text content => some content
  | .rich_text texts => some (String.join texts)
  | .otherType => none

/-- Model of `get_date_range(props)`: a non-blank override takes priority and is
parsed by `parse_date_override` (with the trimmed raw text returned as the
third component); otherwise the structured date fields are formatted
independently and the third component is `None`. -/
def get_date_range (props : DateProps) : Option String × Option String × Option String :=
  let fallback : Option String × Option String × Option String :=
    (fmt_date props.startDate, fmt_date props.endDate, none)
  match props.dateOverride with
  | some ov =>
    match overrideText ov with
    | some override_text =>
      if trimStr override_text ≠ "" then
        let (s, e) := parse_date_override (trimStr override_text)
        (s, e, some (trimStr override_text))
      else fallback
    | none => fallback
  | none => fallback

/-- Month lookup written from the spec's words: the 1-based position of a
month abbreviation in the fixed table. -/
def monthNum : String → Option Int
  | "Jan" => some 1
  | "Feb" => some 2
  | "Mar" => some 3
  | "Apr" => some 4
  | "May" => some 5
  | "Jun" => some 6
  | "Jul" => some 7
  | "Aug" => some 8
  | "Sep" => some 9
  | "Oct" => some 10
  | "Nov" => some 11
  | "Dec" => some 12
  | _ => none

/-- The date-for-sorting key as the amended claim C6 words it: `(9999,12)`
for the empty string and for "present" in any letter case; `(year, m)` for
a two-token string whose second token is an integer, where `m` is the
month's 1-based table position, or `0` for an unrecognized first token;
`(0, 0)` for everything else. -/
def dateKeySpec (s : String) : Int × Int :=
  if s = "" then (9999, 12)
  else if toLowerStr s = "present" then (9999, 12)
  else
    match splitWs s with
    | [monthTok, yearTok] =>
      match pyInt yearTok with
      | some y => (y, (monthNum monthTok).getD 0)
      | none => (0, 0)
    | _ => (0, 0)

/-- The sort key as claim C5 words it: re-derive from the raw override
whenever `date_display` is non-null; otherwise `end_date` if present, else
`start_date`; `(0, 0)` when neither exists. -/
def claimSortKey (entry : Entry) : Int × Int :=
  match entry.date_display with
  | some dd => get_latest_end_date_from_override dd
  | none =>
    match entry.end_date with
    | some s => parse_date_for_sorting s
    | none =>
      match entry.start_date with
      | some s => parse_date_for_sorting s
      | none => (0, 0)

/-- A paragraph block with one unannotated span. -/
def paraBlock (txt : String) : Block :=
  .mk (some "paragraph") [("paragraph", ⟨some [⟨txt, none, none⟩], none⟩)] false []

/-- A level-1 heading block with the given spans. -/
def h1Block (spans : List Span) : Block :=
  .mk (some "heading_1") [("heading_1", ⟨some spans, none⟩)] false []

/-- The block sequence of the region-filter example:
`[A, H1("For Resume"), B, C, H1("Not For Resume"), D]`. -/
def regionExample : List Block :=
  [paraBlock "A", h1Block [⟨"For Resume", none, none⟩], paraBlock "B", paraBlock "C",
    h1Block [⟨"Not For Resume", none, none⟩], paraBlock "D"]

/-- A heading whose sentinel text "For Resume" is split across two
rich-text spans. -/
def splitHeading : Block :=
  h1Block [⟨"For ", none, none⟩, ⟨"Resume", none, none⟩]

/-- An entry whose `date_display` is non-null but empty: the claimed key
would re-derive from the (empty) override, the code falls back to
`end_date`. -/
def entryEmptyOverride : Entry :=
  ⟨"A", "", "", "", none, some "Jan 2020", some "", true, ""⟩

/-- An entry with a plain `end_date` and no override. -/
def entryPlainEnd : Entry :=
  ⟨"B", "", "", "", none, some "Jun 2010", none, true, ""⟩

/-- A block record with no `"type"` key at all. -/
def typelessBlock : Block :=
  .mk none [] false []

/-! ## Lemmas and claim theorems -/

theorem dateLt_iff (a b : Int × Int) :
    dateLt a b = true ↔ a.1 < b.1 ∨ (a.1 = b.1 ∧ a.2 < b.2) := by
  simp [dateLt]

theorem dateLt_irrefl (a : Int × Int) : dateLt a a = false := by
  cases h : dateLt a a
  · rfl
  · rw [dateLt_iff] at h; omega

theorem dateLt_of_le_of_lt {a b c : Int × Int}
    (h1 : dateLt a b = false) (h2 : dateLt a c = true) : dateLt b c = true := by
  have hab : ¬ (a.1 < b.1 ∨ (a.1 = b.1 ∧ a.2 < b.2)) := by
    intro hx
    rw [← dateLt_iff, h1] at hx
    exact Bool.false_ne_true hx
  rw [dateLt_iff] at h2 ⊢
  push_neg at hab
  omega

theorem dateLt_trans {a b c : Int × Int}
    (h1 : dateLt a b = true) (h2 : dateLt b c = true) : dateLt a c = true := by
  rw [dateLt_iff] at h1 h2 ⊢; omega

theorem pyMin_mem (key : String → Int × Int) (x : String) (xs : List String) :
    pyMin key x xs ∈ x :: xs := by
  induction xs generalizing x with
  | nil => simp [pyMin]
  | cons y ys ih =>
    rw [pyMin]
    by_cases h : dateLt (key y) (key x) = true
    · rw [if_pos h]
      rcases List.mem_cons.mp (ih y) with h1 | h1
      · rw [h1]; simp
      · simp [List.mem_cons, h1]
    · rw [if_neg h]
      rcases List.mem_cons.mp (ih x) with h1 | h1
      · rw [h1]; simp
      · simp [List.mem_cons, h1]

theorem pyMin_le (key : String → Int × Int) (x : String) (xs : List String) :
    ∀ y ∈ x :: xs, dateLt (key y) (key (pyMin key x xs)) = false := by
  induction xs generalizing x with
  | nil =>
    intro y hy
    simp only [List.mem_singleton] at hy
    rw [hy, pyMin]; exact dateLt_irrefl _
  | cons z zs ih =>
    intro y hy
    rw [pyMin]
    by_cases h : dateLt (key z) (key x) = true
    · rw [if_pos h]
      rcases List.mem_cons.mp hy with h1 | h1
      · -- y = x; the accumulator became z with key z < key x
        rw [h1]
        have hz := ih z z (List.mem_cons_self z zs)
        cases hres : dateLt (key x) (key (pyMin key z zs))
        · rfl
        · exact absurd (dateLt_trans h hres) (by rw [hz]; exact Bool.false_ne_true)
      · exact ih z y h1
    · rw [if_neg h]
      rw [Bool.not_eq_true] at h
      rcases List.mem_cons.mp hy with h1 | h1
      · rw [h1]; exact ih x x (List.mem_cons_self x zs)
      · rcases List.mem_cons.mp h1 with h2 | h2
        · -- y = z, with ¬ (key z < key x); the result key is at most key x
          rw [h2]
          have hx := ih x x (List.mem_cons_self x zs)
          cases hres : dateLt (key z) (key (pyMin key x zs))
          · rfl
          · exact absurd (dateLt_of_le_of_lt h hres) (by rw [hx]; exact Bool.false_ne_true)
        · exact ih x y (List.mem_cons.mpr (Or.inr h2))

theorem pyMax_mem (key : String → Int × Int) (x : String) (xs : List String) :
    pyMax key x xs ∈ x :: xs := by
  induction xs generalizing x with
  | nil => simp [pyMax]
  | cons y ys ih =>
    rw [pyMax]
    by_cases h : dateLt (key x) (key y) = true
    · rw [if_pos h]
      rcases List.mem_cons.mp (ih y) with h1 | h1
      · rw [h1]; simp
      · simp [List.mem_cons, h1]
    · rw [if_neg h]
      rcases List.mem_cons.mp (ih x) with h1 | h1
      · rw [h1]; simp
      · simp [List.mem_cons, h1]

theorem pyMax_ge (key : String → Int × Int) (x : String) (xs : List String) :
    ∀ y ∈ x :: xs, dateLt (key (pyMax key x xs)) (key y) = false := by
  induction xs generalizing x with
  | nil =>
    intro y hy
    simp only [List.mem_singleton] at hy
    rw [hy, pyMax]; exact dateLt_irrefl _
  | cons z zs ih =>
    intro y hy
    rw [pyMax]
    by_cases h : dateLt (key x) (key z) = true
    · rw [if_pos h]
      rcases List.mem_cons.mp hy with h1 | h1
      · -- y = x; the accumulator became z with key x < key z
        rw [h1]
        have hz := ih z z (List.mem_cons_self z zs)
        cases hres : dateLt (key (pyMax key z zs)) (key x)
        · rfl
        · exact absurd (dateLt_trans hres h) (by rw [hz]; exact Bool.false_ne_true)
      · exact ih z y h1
    · rw [if_neg h]
      rw [Bool.not_eq_true] at h
      rcases List.mem_cons.mp hy with h1 | h1
      · rw [h1]; exact ih x x (List.mem_cons_self x zs)
      · rcases List.mem_cons.mp h1 with h2 | h2
        · -- y = z, with ¬ (key x < key z); the result key is at least key x
          rw [h2]
          have hx := ih x x (List.mem_cons_self x zs)
          cases hres : dateLt (key (pyMax key x zs)) (key z)
          · rfl
          · exact absurd (dateLt_of_le_of_lt hx hres) (by rw [h]; exact Bool.false_ne_true)
        · exact ih x y (List.mem_cons.mpr (Or.inr h2))

theorem insertStable_perm (le : Entry → Entry → Bool) (x : Entry) (l : List Entry) :
    (insertStable le x l).Perm (x :: l) := by
  induction l with
  | nil => simp [insertStable]
  | cons y ys ih =>
    rw [insertStable]
    by_cases h : le x y = true
    · rw [if_pos h]
    · rw [if_neg h]
      exact (ih.cons y).trans (List.Perm.swap x y ys)

theorem stableSort_perm (le : Entry → Entry → Bool) (l : List Entry) :
    (stableSort le l).Perm l := by
  induction l with
  | nil => simp [stableSort]
  | cons x xs ih =>
    rw [stableSort]
    exact (insertStable_perm le x (stableSort le xs)).trans (ih.cons x)

theorem insertStable_pairwise (le : Entry → Entry → Bool)
    (htot : ∀ a b, le a b = false → le b a = true)
    (htrans : ∀ a b c, le a b = true → le b c = true → le a c = true)
    (x : Entry) (l : List Entry) (hl : l.Pairwise (fun a b => le a b = true)) :
    (insertStable le x l).Pairwise (fun a b => le a b = true) := by
  induction l with
  | nil => simp [insertStable]
  | cons y ys ih =>
    rw [insertStable]
    rcases List.pairwise_cons.mp hl with ⟨hy, hys⟩
    by_cases h : le x y = true
    · rw [if_pos h]
      refine List.pairwise_cons.mpr ⟨?_, hl⟩
      intro z hz
      rcases List.mem_cons.mp hz with h1 | h1
      · rw [h1]; exact h
      · exact htrans x y z h (hy z h1)
    · rw [if_neg h]
      refine List.pairwise_cons.mpr ⟨?_, ih hys⟩
      intro z hz
      have hmem := (insertStable_perm le x ys).mem_iff.mp hz
      rcases List.mem_cons.mp hmem with h1 | h1
      · rw [h1]
        exact htot x y (Bool.not_eq_true (le x y) ▸ eq_false_of_ne_true h)
      · exact hy z h1

theorem stableSort_pairwise (le : Entry → Entry → Bool)
    (htot : ∀ a b, le a b = false → le b a = true)
    (htrans : ∀ a b c, le a b = true → le b c = true → le a c = true)
    (l : List Entry) :
    (stableSort le l).Pairwise (fun a b => le a b = true) := by
  induction l with
  | nil => simp [stableSort]
  | cons x xs ih =>
    rw [stableSort]
    exact insertStable_pairwise le htot htrans x (stableSort le xs) ih

theorem insertStable_filter_pos (le : Entry → Entry → Bool) (p : Entry → Bool)
    (x : Entry) (l : List Entry) (hx : p x = true)
    (hle : ∀ b ∈ l, p b = true → le x b = true) :
    (insertStable le x l).filter p = x :: l.filter p := by
  induction l with
  | nil => simp [insertStable, hx]
  | cons y ys ih =>
    rw [insertStable]
    by_cases h : le x y = true
    · rw [if_pos h]
      simp [List.filter_cons, hx]
    · rw [if_neg h]
      have hpy : p y = false := by
        cases hy : p y
        · rfl
        · exact absurd (hle y (List.mem_cons_self y ys) hy) h
      rw [List.filter_cons_of_neg (by simp [hpy]), ih ?_,
        List.filter_cons_of_neg (by simp [hpy])]
      intro b hb hpb
      exact hle b (List.mem_cons.mpr (Or.inr hb)) hpb

theorem insertStable_filter_neg (le : Entry → Entry → Bool) (p : Entry → Bool)
    (x : Entry) (l : List Entry) (hx : p x = false) :
    (insertStable le x l).filter p = l.filter p := by
  induction l with
  | nil => simp [insertStable, hx]
  | cons y ys ih =>
    rw [insertStable]
    by_cases h : le x y = true
    · rw [if_pos h]
      rw [List.filter_cons_of_neg (by simp [hx])]
    · rw [if_neg h]
      by_cases hy : p y = true
      · rw [List.filter_cons_of_pos (by simp [hy]), ih,
          List.filter_cons_of_pos (by simp [hy])]
      · rw [List.filter_cons_of_neg (by simpa using hy), ih,
          List.filter_cons_of_neg (by simpa using hy)]

/-- Stability of `stableSort`: elements picked out by a predicate `p` on
which `le` always holds (e.g. "has sort key v") appear in the result in
their original relative order. -/
theorem stableSort_filter (le : Entry → Entry → Bool) (p : Entry → Bool)
    (hp : ∀ a b, p a = true → p b = true → le a b = true)
    (l : List Entry) :
    (stableSort le l).filter p = l.filter p := by
  induction l with
  | nil => simp [stableSort]
  | cons x xs ih =>
    rw [stableSort]
    by_cases hx : p x = true
    · rw [insertStable_filter_pos le p x (stableSort le xs) hx ?_,
        List.filter_cons_of_pos (by simp [hx]), ih]
      intro b _ hpb
      exact hp x b hx hpb
    · rw [insertStable_filter_neg le p x (stableSort le xs) (by simpa using hx), ih,
        List.filter_cons_of_neg (by simpa using hx)]

/-- C1: the inline annotation renderer does **not** nest the link
outermost.  On a span carrying a link target together with bold and italic,
the code produces `\textit{\textbf{\href{u}{x}}}` — the link construct is
the innermost wrap, with bold, then italic, wrapped around it — whereas the
claim (and the code's own comment, "link first (outermost), then text
styles (nest inside link)") calls for `\href{u}{\textbf{\textit{x}}}`. -/
theorem rt_to_latex_link_bold_italic :
    rt_to_latex [⟨"x", some ⟨true, true, false, false, false⟩, some "u"⟩] =
      "\\textit\x7b\\textbf\x7b\\href\x7bu\x7d\x7bx\x7d\x7d\x7d" := by
  decide

/-- C2 (counterexample): on
`"Jan 2020 -- Dec 2021, Jan 2023 -- Present"` the resolver does **not**
return `"Present"` as the resolved end. -/
theorem parse_date_override_mixed_not_present :
    parse_date_override "Jan 2020 -- Dec 2021, Jan 2023 -- Present" ≠
      (some "Jan 2020", some "Present") := by
  decide

/-- C2 (amended): on `"Jan 2020 -- Dec 2021, Jan 2023 -- Present"` the
resolver returns start `"Jan 2020"` and end `"Dec 2021"` — the latest
concrete end takes priority over the open-ended `"Present"`. -/
theorem parse_date_override_mixed_concrete_end :
    parse_date_override "Jan 2020 -- Dec 2021, Jan 2023 -- Present" =
      (some "Jan 2020", some "Dec 2021") := by
  decide

/-- The month branch of `parse_date_for_sorting` agrees with the
spec-style table lookup `monthNum`. -/
theorem month_branch_eq (m : String) :
    (if m ∈ MONTHS then ((MONTHS.indexOf m : Nat) : Int) + 1 else 0) = (monthNum m).getD 0 := by
  by_cases hm : m ∈ MONTHS
  · rw [if_pos hm]
    fin_cases hm <;> decide
  · rw [if_neg hm]
    rw [monthNum.eq_def]
    split
    all_goals first
      | rfl
      | simp [MONTHS] at hm

/-- C6 (amended): `parse_date_for_sorting` coincides everywhere with the
amended specification `dateKeySpec`: `(9999, 12)` for the empty string and
for "present" in any case; `(year, m)` for two whitespace-separated tokens
with an integer second token, `m` being the month's table position or `0`;
`(0, 0)` otherwise. -/
theorem parse_date_for_sorting_eq_spec (s : String) :
    parse_date_for_sorting s = dateKeySpec s := by
  unfold parse_date_for_sorting dateKeySpec
  by_cases h0 : s = ""
  · simp [h0]
  · by_cases h1 : toLowerStr s = "present"
    · simp [h0, h1]
    · have hcond : ¬ (s = "" ∨ toLowerStr s = "present") := by
        intro h; rcases h with h | h
        · exact h0 h
        · exact h1 h
      rw [if_neg hcond, if_neg h0, if_neg h1]
      split
      · split
        · simp only [Prod.mk.injEq, true_and]
          exact month_branch_eq _
        · rfl
      · rfl

/-- C3: on `[A, H1("For Resume"), B, C, H1("Not For Resume"), D]` the
region filter returns `[A, B, C]`, not the claimed `[B, C]`: the block
**before** the "For Resume" sentinel is included, because the loop state
starts inclusive and `found_for_resume` is still false when `A` is
processed.  Both sentinel headings and everything from "Not For Resume"
onward are dropped as claimed.  The function's own docstring ("Return only
blocks located after H1 'For Resume' and before H1 'Not For Resume'")
promises exactly the claimed `[B, C]`, so the code contradicts its own
documentation here. -/
theorem filter_region_example :
    filter_for_resume_region regionExample =
      some [paraBlock "A", paraBlock "B", paraBlock "C"] := by
  rfl

/-- C9: a level-1 heading whose first rich-text span does not itself carry
a sentinel text is processed as an ordinary block, whatever the remaining
spans contain — in particular when the sentinel text is split across two
or more spans.  In any loop state, such a heading neither changes the
state nor stops the loop: it is appended (when the state is inclusive)
exactly like a non-heading block. -/
theorem filter_split_sentinel_ordinary
    (s1 s2 : Span) (spans : List Span) (pls : List (String × Payload))
    (pl : Payload) (hc : Bool) (ch : List Block)
    (hpl : (Block.mk (some "heading_1") pls hc ch).payload "heading_1" = some pl)
    (hrt : pl.rich_text = some (s1 :: s2 :: spans))
    (hs1 : toLowerStr (trimStr s1.plain_text) ≠ "for resume")
    (hs1' : toLowerStr (trimStr s1.plain_text) ≠ "not for resume")
    (_hsplit : toLowerStr (trimStr (String.join ((s1 :: s2 :: spans).map Span.plain_text)))
        = "for resume" ∨
      toLowerStr (trimStr (String.join ((s1 :: s2 :: spans).map Span.plain_text)))
        = "not for resume")
    (in_resume found_for_resume : Bool) (l : List Block) :
    filterAux in_resume found_for_resume (Block.mk (some "heading_1") pls hc ch :: l) =
      if !found_for_resume || in_resume then
        (filterAux in_resume found_for_resume l).map
          (fun rest => Block.mk (some "heading_1") pls hc ch :: rest)
      else filterAux in_resume found_for_resume l := by
  rw [filterAux]
  simp only [Block.type?, hpl, hrt]
  rw [if_pos trivial, if_neg hs1, if_neg hs1']

/-- Witness for C9: the spans "For " / "Resume" concatenate to the
sentinel text, yet the heading is kept as an ordinary block and the filter
state is unchanged. -/
theorem filter_split_sentinel_ordinary_witness :
    toLowerStr (trimStr (String.join
        ([(⟨"For ", none, none⟩ : Span), ⟨"Resume", none, none⟩].map Span.plain_text)))
      = "for resume"
    ∧ filterAux true false [splitHeading, paraBlock "X"] =
        some [splitHeading, paraBlock "X"] :=
  ⟨by decide,
    (filter_split_sentinel_ordinary ⟨"For ", none, none⟩ ⟨"Resume", none, none⟩ []
      [("heading_1", ⟨some [⟨"For ", none, none⟩, ⟨"Resume", none, none⟩], none⟩)]
      ⟨some [⟨"For ", none, none⟩, ⟨"Resume", none, none⟩], none⟩ false []
      rfl rfl (by decide) (by decide) (Or.inl (by decide)) true false
      [paraBlock "X"]).trans (by rfl)⟩

/-- C4: for a comma-separated multi-range override in which at least one
sub-range carries the `" -- "` separator, `parse_date_override` returns a
start that is one of the parsed starts with a minimal date key (no parsed
start is strictly earlier), and an end that — whenever a concrete
(non-"present") end exists — is one of the concrete ends with a maximal
date key, while `"Present"` is returned only when every parsed end is
"present". -/
theorem parse_date_override_multi (t : String)
    (hc : hasSub (normalizeDashes t) "," = true)
    (hp : overridePairs t ≠ []) :
    ∃ s e, parse_date_override t = (some s, some e)
      ∧ s ∈ overrideStarts t
      ∧ (∀ x ∈ overrideStarts t,
          dateLt (parse_date_for_sorting x) (parse_date_for_sorting s) = false)
      ∧ (overrideConcreteEnds t ≠ [] →
          e ∈ overrideConcreteEnds t ∧
            ∀ x ∈ overrideConcreteEnds t,
              dateLt (parse_date_for_sorting e) (parse_date_for_sorting x) = false)
      ∧ (overrideConcreteEnds t = [] → e = "Present") := by
  obtain ⟨p, ps, hps⟩ : ∃ p ps, overridePairs t = p :: ps := by
    cases h : overridePairs t with
    | nil => exact absurd h hp
    | cons p ps => exact ⟨p, ps, rfl⟩
  have hstarts : overrideStarts t = trimStr p.1 :: ps.map (fun q => trimStr q.1) := by
    simp [overrideStarts, hps]
  have hends : overrideEnds t = trimStr p.2 :: ps.map (fun q => trimStr q.2) := by
    simp [overrideEnds, hps]
  cases hce : overrideConcreteEnds t with
  | nil =>
    simp only [parse_date_override, hc, hstarts, hends, hce]
    refine ⟨_, "Present", rfl, ?_, ?_, ?_, ?_⟩
    · exact pyMin_mem _ _ _
    · exact pyMin_le _ _ _
    · intro h; exact absurd rfl h
    · intro _; rfl
  | cons n0 ns =>
    simp only [parse_date_override, hc, hstarts, hends, hce]
    refine ⟨_, _, rfl, ?_, ?_, ?_, ?_⟩
    · exact pyMin_mem _ _ _
    · exact pyMin_le _ _ _
    · intro _
      constructor
      · exact pyMax_mem _ _ _
      · exact pyMax_ge _ _ _
    · intro h; cases h

/-- Witness for C4, at `"Jan 2020 -- Dec 2021, Jan 2023 -- Dec 2024"`. -/
theorem parse_date_override_multi_witness :
    hasSub (normalizeDashes "Jan 2020 -- Dec 2021, Jan 2023 -- Dec 2024") "," = true
    ∧ overridePairs "Jan 2020 -- Dec 2021, Jan 2023 -- Dec 2024" ≠ []
    ∧ ∃ s e,
        parse_date_override "Jan 2020 -- Dec 2021, Jan 2023 -- Dec 2024" = (some s, some e)
        ∧ s ∈ overrideStarts "Jan 2020 -- Dec 2021, Jan 2023 -- Dec 2024"
        ∧ (∀ x ∈ overrideStarts "Jan 2020 -- Dec 2021, Jan 2023 -- Dec 2024",
            dateLt (parse_date_for_sorting x) (parse_date_for_sorting s) = false)
        ∧ (overrideConcreteEnds "Jan 2020 -- Dec 2021, Jan 2023 -- Dec 2024" ≠ [] →
            e ∈ overrideConcreteEnds "Jan 2020 -- Dec 2021, Jan 2023 -- Dec 2024" ∧
              ∀ x ∈ overrideConcreteEnds "Jan 2020 -- Dec 2021, Jan 2023 -- Dec 2024",
                dateLt (parse_date_for_sorting e) (parse_date_for_sorting x) = false)
        ∧ (overrideConcreteEnds "Jan 2020 -- Dec 2021, Jan 2023 -- Dec 2024" = [] →
            e = "Present") :=
  ⟨by decide, by decide, parse_date_override_multi _ (by decide) (by decide)⟩

/-- If `pat` occurs in `l`, `splitFirst` finds it. -/
theorem splitFirst_isSome_of_occ (pat : List Char) :
    ∀ pre post : List Char, (splitFirst (pre ++ pat ++ post) pat).isSome = true := by
  intro pre post
  induction pre with
  | nil =>
    cases pat with
    | nil =>
      cases post with
      | nil => rfl
      | cons c rest =>
        rw [List.nil_append, List.nil_append, splitFirst,
          if_pos (List.isPrefixOf_iff_prefix.mpr (List.nil_prefix))]
        rfl
    | cons p pp =>
      rw [List.nil_append, List.cons_append]
      rw [splitFirst, if_pos (List.isPrefixOf_iff_prefix.mpr ⟨post, by simp⟩)]
      rfl
  | cons c pre' ih =>
    simp only [List.cons_append]
    rw [splitFirst]
    by_cases hp : pat.isPrefixOf (c :: (pre' ++ pat ++ post))
    · rw [if_pos hp]; rfl
    · rw [if_neg hp]
      rcases h : splitFirst (pre' ++ pat ++ post) pat with _ | v
      · rw [h] at ih; cases ih
      · rfl

/-- If `splitFirst` finds `pat` in `l`, then `pat` occurs in `l`. -/
theorem splitFirst_occ_of_isSome (pat : List Char) :
    ∀ l : List Char, (splitFirst l pat).isSome = true →
      ∃ pre post, l = pre ++ pat ++ post := by
  intro l
  induction l with
  | nil =>
    rw [splitFirst]
    cases pat with
    | nil => intro _; exact ⟨[], [], rfl⟩
    | cons p pp => intro h; simp at h
  | cons c rest ih =>
    rw [splitFirst]
    by_cases hp : pat.isPrefixOf (c :: rest)
    · intro _
      obtain ⟨post, hpost⟩ := List.isPrefixOf_iff_prefix.mp hp
      exact ⟨[], post, by rw [List.nil_append, hpost]⟩
    · rw [if_neg hp]
      intro h
      have h' : (splitFirst rest pat).isSome = true := by
        cases hsf : splitFirst rest pat with
        | none => rw [hsf] at h; simp at h
        | some v => rfl
      obtain ⟨pre, post, hocc⟩ := ih h'
      exact ⟨c :: pre, post, by rw [hocc]; rfl⟩

/-- The function `splitOnFuel` never returns an empty piece list. -/
theorem splitOnFuel_ne_nil (p0 : Char) (ps : List Char) :
    ∀ fuel l, splitOnFuel p0 ps fuel l ≠ [] := by
  intro fuel
  induction fuel with
  | zero => intro l; rw [splitOnFuel]; simp
  | succ fuel ih =>
    intro l
    cases l with
    | nil => rw [splitOnFuel]; simp
    | cons c rest =>
      rw [splitOnFuel]
      by_cases hp : (p0 :: ps).isPrefixOf (c :: rest)
      · rw [if_pos hp]; simp
      · rw [if_neg hp]
        cases h : splitOnFuel p0 ps fuel rest with
        | nil => exact absurd h (ih rest)
        | cons h t => simp [List.modifyHead]

/-- Every piece produced by `splitOnFuel` occurs in the input, and the
first piece is a prefix of it. -/
theorem splitOnFuel_occ (p0 : Char) (ps : List Char) :
    ∀ fuel l, (∃ post, l = (splitOnFuel p0 ps fuel l).headI ++ post)
      ∧ ∀ q ∈ splitOnFuel p0 ps fuel l, ∃ a b, l = a ++ q ++ b := by
  intro fuel
  induction fuel with
  | zero =>
    intro l
    refine ⟨⟨[], by rw [splitOnFuel]; simp⟩, ?_⟩
    intro q hq
    rw [splitOnFuel] at hq
    simp only [List.mem_singleton] at hq
    exact ⟨[], [], by rw [hq]; simp⟩
  | succ fuel ih =>
    intro l
    cases l with
    | nil =>
      refine ⟨⟨[], by rw [splitOnFuel]; simp⟩, ?_⟩
      intro q hq
      rw [splitOnFuel] at hq
      simp only [List.mem_singleton] at hq
      exact ⟨[], [], by rw [hq]; simp⟩
    | cons c rest =>
      by_cases hp : (p0 :: ps).isPrefixOf (c :: rest)
      · rw [splitOnFuel, if_pos hp]
        refine ⟨⟨c :: rest, by simp⟩, ?_⟩
        intro q hq
        rcases List.mem_cons.mp hq with h1 | h1
        · exact ⟨[], c :: rest, by rw [h1]; simp⟩
        · obtain ⟨a, b, hab⟩ := (ih (rest.drop ps.length)).2 q h1
          refine ⟨c :: rest.take ps.length ++ a, b, ?_⟩
          have : rest = rest.take ps.length ++ rest.drop ps.length := by
            rw [List.take_append_drop]
          rw [List.cons_append]
          conv_lhs => rw [this]
          rw [hab]
          simp
      · rw [splitOnFuel, if_neg hp]
        rcases hsplit : splitOnFuel p0 ps fuel rest with _ | ⟨h, t⟩
        · exact absurd hsplit (splitOnFuel_ne_nil p0 ps fuel rest)
        · obtain ⟨⟨post, hpost⟩, hmem⟩ := ih rest
          rw [hsplit] at hpost hmem
          simp only [List.headI] at hpost
          refine ⟨⟨post, ?_⟩, ?_⟩
          · simp only [List.modifyHead, List.headI]
            rw [List.cons_append, ← hpost]
          · intro q hq
            simp only [List.modifyHead] at hq
            rcases List.mem_cons.mp hq with h1 | h1
            · exact ⟨[], post, by rw [h1, List.nil_append, List.cons_append, ← hpost]⟩
            · obtain ⟨a, b, hab⟩ := hmem q (List.mem_cons.mpr (Or.inr h1))
              exact ⟨c :: a, b, by rw [hab]; rfl⟩

/-- The trimmed text occurs in the original text. -/
theorem trim_occ (s : String) :
    ∃ a b, s.toList = a ++ (trimStr s).toList ++ b := by
  refine ⟨s.toList.takeWhile Char.isWhitespace,
    ((s.toList.dropWhile Char.isWhitespace).reverse.takeWhile Char.isWhitespace).reverse, ?_⟩
  have h1 : s.toList =
      s.toList.takeWhile Char.isWhitespace ++ s.toList.dropWhile Char.isWhitespace := by
    rw [List.takeWhile_append_dropWhile]
  have h2 : s.toList.dropWhile Char.isWhitespace =
      ((s.toList.dropWhile Char.isWhitespace).reverse.dropWhile Char.isWhitespace).reverse ++
        ((s.toList.dropWhile Char.isWhitespace).reverse.takeWhile Char.isWhitespace).reverse := by
    conv_lhs => rw [← List.reverse_reverse (s.toList.dropWhile Char.isWhitespace)]
    conv_lhs =>
      rw [← List.takeWhile_append_dropWhile Char.isWhitespace
        (s.toList.dropWhile Char.isWhitespace).reverse]
    rw [List.reverse_append]
  conv_lhs => rw [h1, h2]
  rw [List.append_assoc]
  rfl

/-- When the normalized override text contains no `" -- "` separator, no
comma-piece contributes a `(start, end)` pair. -/
theorem overridePairs_nil (u : String)
    (hns : hasSub (normalizeDashes u) " -- " = false) : overridePairs u = [] := by
  have hocc : ∀ pre post : List Char,
      (normalizeDashes u).toList ≠ pre ++ (" -- ".toList) ++ post := by
    intro pre post heq
    have h := splitFirst_isSome_of_occ (" -- ".toList) pre post
    rw [← heq] at h
    rw [hasSub] at hns
    rw [h] at hns
    cases hns
  unfold overridePairs overrideRanges
  rw [List.filterMap_eq_nil_iff]
  intro r hr
  obtain ⟨piece, hpiece, rfl⟩ := List.mem_map.mp hr
  cases hsp : splitOnceStr (trimStr piece) " -- " with
  | none => rfl
  | some pr =>
    exfalso
    have hs : (splitFirst (trimStr piece).toList (" -- ".toList)).isSome = true := by
      rw [splitOnceStr] at hsp
      cases h2 : splitFirst (trimStr piece).toList (" -- ".toList) with
      | none => rw [h2] at hsp; cases hsp
      | some v => rfl
    obtain ⟨pre, post, hocc1⟩ := splitFirst_occ_of_isSome _ _ hs
    obtain ⟨a2, b2, hocc2⟩ := trim_occ piece
    have hocc3 : ∃ a b, (normalizeDashes u).toList = a ++ piece.toList ++ b := by
      rw [splitOnStr] at hpiece
      have hpat : (",".toList : List Char) = [','] := rfl
      rw [hpat] at hpiece
      obtain ⟨q, hq, hqeq⟩ := List.mem_map.mp hpiece
      obtain ⟨a, b, hab⟩ := (splitOnFuel_occ ',' [] (normalizeDashes u).toList.length
        (normalizeDashes u).toList).2 q hq
      have hq2 : piece.toList = q := by rw [← hqeq]; rfl
      exact ⟨a, b, by rw [hab, hq2]⟩
    obtain ⟨a3, b3, hocc3⟩ := hocc3
    apply hocc (a3 ++ a2 ++ pre) (post ++ b2 ++ b3)
    rw [hocc3, hocc2, hocc1]
    simp

/-- When the (dash-normalized) override text has no `" -- "` separator at
all, the whole trimmed normalized text is the start and the end is
absent. -/
theorem parse_date_override_no_sep (u : String)
    (hns : hasSub (normalizeDashes u) " -- " = false) :
    parse_date_override u = (some (trimStr (normalizeDashes u)), none) := by
  have hpairs := overridePairs_nil u hns
  have hsp : splitOnceStr (normalizeDashes u) " -- " = none := by
    rw [splitOnceStr]
    rw [hasSub] at hns
    cases h : splitFirst (normalizeDashes u).toList (" -- ".toList) with
    | none => rfl
    | some v => rw [h] at hns; cases hns
  have hstarts : overrideStarts u = [] := by rw [overrideStarts, hpairs]; rfl
  have hends : overrideEnds u = [] := by rw [overrideEnds, hpairs]; rfl
  simp only [parse_date_override, hstarts, hends, hsp, ite_self]

/-- C8 (amended): for every non-blank override, the trimmed raw override
text is returned verbatim as the third output; and when the dash-normalized
trimmed text contains no `" -- "` separator, the start is that whole
normalized trimmed text (em/en dashes replaced by `"--"`) and the end is
absent. -/
theorem get_date_range_override (t : String) (sd ed : Option String)
    (hnb : trimStr t ≠ "") :
    (get_date_range ⟨some (.text t), sd, ed⟩).2.2 = some (trimStr t)
    ∧ (hasSub (normalizeDashes (trimStr t)) " -- " = false →
        get_date_range ⟨some (.text t), sd, ed⟩ =
          (some (trimStr (normalizeDashes (trimStr t))), none, some (trimStr t))) := by
  constructor
  · simp only [get_date_range, overrideText]
    rw [if_pos hnb]
  · intro hns
    simp only [get_date_range, overrideText]
    rw [if_pos hnb, parse_date_override_no_sep _ hns]

/-- Witness for C8, with the separator-free override `"May 2020"`. -/
theorem get_date_range_override_witness :
    trimStr "May 2020" ≠ ""
    ∧ ((get_date_range ⟨some (.text "May 2020"), none, none⟩).2.2 = some (trimStr "May 2020")
      ∧ (hasSub (normalizeDashes (trimStr "May 2020")) " -- " = false →
          get_date_range ⟨some (.text "May 2020"), none, none⟩ =
            (some (trimStr (normalizeDashes (trimStr "May 2020"))), none,
              some (trimStr "May 2020")))) :=
  ⟨by decide, get_date_range_override "May 2020" none none (by decide)⟩

/-- C8 (counterexample): an override written with an en dash and no
spaced separator, `"2020–2021"`, is returned with its dashes normalized —
the start is `"2020--2021"`, which differs from the trimmed override text
`"2020–2021"` that the claim promises verbatim. -/
theorem get_date_range_dash_normalized :
    get_date_range ⟨some (.text "2020–2021"), none, none⟩ =
      (some "2020--2021", none, some "2020–2021")
    ∧ ("2020--2021" : String) ≠ "2020–2021" := by
  constructor
  · decide
  · decide

/-- C6 (counterexample): the empty string is neither of the form
`"MonthAbbrev Year"` nor the literal `"present"`, yet
`parse_date_for_sorting` maps it to `(9999, 12)`, not to the claimed
`(0, 0)` sink. -/
theorem parse_date_for_sorting_empty :
    parse_date_for_sorting "" = (9999, 12) ∧ ((9999, 12) : Int × Int) ≠ (0, 0) := by
  decide

theorem dateLt_asymm {a b : Int × Int} (h : dateLt a b = true) : dateLt b a = false := by
  cases h2 : dateLt b a
  · rfl
  · have h3 := dateLt_trans h h2
    rw [dateLt_irrefl] at h3
    cases h3

/-- C5 (counterexample): sorting `[A, B]` where `A` has the non-null but
empty override `""` (claimed key `(0,0)`, code key from `end_date`
`(2020,1)`) and `B` has end date `"Jun 2010"` (key `(2010,6)`): the code
returns `[A, B]`, which is **not** descending by the claimed key. -/
theorem sort_entries_not_claim_key :
    ¬ (sort_entries_by_date [entryEmptyOverride, entryPlainEnd]).Pairwise
        (fun a b => dateLt (claimSortKey a) (claimSortKey b) = false) := by
  decide

/-- C5 (amended): `sort_entries_by_date` returns a permutation of its
input that is descending by the effective key `get_sort_date` (the
override-derived key when `date_display` is non-null **and non-empty**,
else the first non-null non-empty of `end_date` / `start_date`, else
`(0,0)`), and entries with equal keys keep their original relative
order. -/
theorem sort_entries_by_date_spec (entries : List Entry) :
    (sort_entries_by_date entries).Perm entries
    ∧ (sort_entries_by_date entries).Pairwise
        (fun a b => dateLt (get_sort_date a) (get_sort_date b) = false)
    ∧ ∀ v : Int × Int,
        (sort_entries_by_date entries).filter (fun e => get_sort_date e = v) =
          entries.filter (fun e => get_sort_date e = v) := by
  have htot : ∀ a b : Entry, entryGe a b = false → entryGe b a = true := by
    intro a b hab
    unfold entryGe at hab ⊢
    cases h : dateLt (get_sort_date a) (get_sort_date b) with
    | false => rw [h] at hab; cases hab
    | true => rw [dateLt_asymm h]; rfl
  have htrans : ∀ a b c : Entry,
      entryGe a b = true → entryGe b c = true → entryGe a c = true := by
    intro a b c hab hbc
    unfold entryGe at hab hbc ⊢
    have hab' : dateLt (get_sort_date a) (get_sort_date b) = false := by
      cases h : dateLt (get_sort_date a) (get_sort_date b)
      · rfl
      · rw [h] at hab; cases hab
    have hbc' : dateLt (get_sort_date b) (get_sort_date c) = false := by
      cases h : dateLt (get_sort_date b) (get_sort_date c)
      · rfl
      · rw [h] at hbc; cases hbc
    cases h : dateLt (get_sort_date a) (get_sort_date c)
    · rfl
    · have h2 := dateLt_of_le_of_lt hab' h
      rw [hbc'] at h2
      cases h2
  refine ⟨stableSort_perm entryGe entries, ?_, ?_⟩
  · refine List.Pairwise.imp ?_ (stableSort_pairwise entryGe htot htrans entries)
    intro a b hab
    unfold entryGe at hab
    cases h : dateLt (get_sort_date a) (get_sort_date b)
    · rfl
    · rw [h] at hab; cases hab
  · intro v
    apply stableSort_filter
    intro a b ha hb
    simp only [decide_eq_true_eq] at ha hb
    unfold entryGe
    rw [ha, hb, dateLt_irrefl]
    rfl

/-- C7 (counterexample): on a block lacking the `type` field the converter
raises (an `AttributeError` at `tp.startswith`, modelled as `none`) instead
of degrading to no output. -/
theorem convert_blocks_typeless_raises :
    convert_blocks_to_latex [typelessBlock] "items" = none := by
  simp [convert_blocks_to_latex, convertBlocks, typelessBlock, Block.type?]

/-- A Boolean wrap keeps any decomposition around a core substring. -/
theorem exists_affix_ite (b : Bool) (w1 w2 core t : String)
    (h : ∃ p q, t = p ++ core ++ q) :
    ∃ p q, (if b then w1 ++ t ++ w2 else t) = p ++ core ++ q := by
  cases b
  · simpa using h
  · obtain ⟨p, q, hpq⟩ := h
    refine ⟨w1 ++ p, q ++ w2, ?_⟩
    rw [if_pos rfl, hpq]
    simp [String.append_assoc]

/-- C10: the link target is interpolated verbatim.  For every span with a
non-empty `href`, the rendering contains the construct
`\href{target}{escaped text}` with the raw target `u` — however `u` is
written, including markup-reserved characters — while the literal text is
escaped. -/
theorem rt_to_latex_href_verbatim (s : Span) (u : String)
    (hhref : s.href = some u) (hu : u ≠ "") :
    ∃ p q, rt_to_latex [s] =
      p ++ ("\\href\x7b" ++ u ++ "\x7d\x7b" ++ latex_escape s.plain_text ++ "\x7d") ++ q := by
  have hjoin : rt_to_latex [s] = spanToLatex s := by
    simp [rt_to_latex, String.join]
  rw [hjoin]
  simp only [spanToLatex, hhref]
  rw [if_pos hu]
  apply exists_affix_ite
  apply exists_affix_ite
  apply exists_affix_ite
  apply exists_affix_ite
  apply exists_affix_ite
  exact ⟨"", "", by rw [String.empty_append, String.append_empty]⟩

/-- Witness for C10: a span whose link target `"a_b#c"` carries LaTeX
special characters; they appear unescaped in the link construct while the
text is escaped. -/
theorem rt_to_latex_href_verbatim_witness :
    (⟨"x_y", some ⟨true, false, false, false, false⟩, some "a_b#c"⟩ : Span).href = some "a_b#c"
    ∧ ("a_b#c" : String) ≠ ""
    ∧ ∃ p q, rt_to_latex [⟨"x_y", some ⟨true, false, false, false, false⟩, some "a_b#c"⟩] =
        p ++ ("\\href\x7b" ++ "a_b#c" ++ "\x7d\x7b" ++ latex_escape "x_y" ++ "\x7d") ++ q :=
  ⟨rfl, by decide,
    rt_to_latex_href_verbatim ⟨"x_y", some ⟨true, false, false, false, false⟩, some "a_b#c"⟩
      "a_b#c" rfl (by decide)⟩

theorem blocksWF_cons {b : Block} {l : List Block}
    (h : blocksWF (b :: l) = true) : blockWF b = true ∧ blocksWF l = true := by
  rw [blocksWF] at h
  exact Bool.and_eq_true_iff.mp h

theorem blockWF_mk_none (pls : List (String × Payload)) (hc : Bool) (ch : List Block) :
    blockWF (Block.mk none pls hc ch) = false := by
  rw [blockWF.eq_def]
  rfl

theorem blockWF_mk_some (tp : String) (pls : List (String × Payload)) (hc : Bool)
    (ch : List Block) :
    blockWF (Block.mk (some tp) pls hc ch) =
      ((!(payloadKinds.contains tp) || (pls.find? (fun kv => kv.1 = tp)).isSome)
        && blocksWF ch) := by
  rw [blockWF.eq_def]

theorem blockWF_type {t : Option String} {pls : List (String × Payload)} {hc : Bool}
    {ch : List Block} (h : blockWF (Block.mk t pls hc ch) = true) :
    ∃ tp, t = some tp := by
  cases t with
  | none => rw [blockWF_mk_none] at h; cases h
  | some tp => exact ⟨tp, rfl⟩

theorem blockWF_children {t : Option String} {pls : List (String × Payload)} {hc : Bool}
    {ch : List Block} (h : blockWF (Block.mk t pls hc ch) = true) :
    blocksWF ch = true := by
  cases t with
  | none => rw [blockWF_mk_none] at h; cases h
  | some tp => rw [blockWF_mk_some] at h; exact (Bool.and_eq_true_iff.mp h).2

theorem blockWF_payload {tp : String} {pls : List (String × Payload)} {hc : Bool}
    {ch : List Block} (h : blockWF (Block.mk (some tp) pls hc ch) = true)
    (hmem : payloadKinds.contains tp = true) :
    ((Block.mk (some tp) pls hc ch).payload tp).isSome = true := by
  rw [blockWF_mk_some] at h
  obtain ⟨h1, _⟩ := Bool.and_eq_true_iff.mp h
  rw [hmem] at h1
  simp only [Bool.not_true, Bool.false_or] at h1
  obtain ⟨kv, hkv⟩ := Option.isSome_iff_exists.mp h1
  unfold Block.payload
  rw [Block.payloads, hkv]
  rfl

/-- Totality of the block converter on well-shaped inputs, by strong
induction on the measure `2 * sizeOf + tag` that also orders the mutual
recursion. -/
theorem convert_measure_aux : ∀ n : Nat,
    (∀ blocks mode, 2 * sizeOf blocks ≤ n → blocksWF blocks = true →
      (convertBlocks blocks mode).isSome = true)
    ∧ (∀ tp mode acc l, 2 * sizeOf l + 1 ≤ n → isListKind tp = true → blocksWF l = true →
      (goRun tp mode acc l).isSome = true)
    ∧ (∀ b list_type mode, 2 * sizeOf b ≤ n → blockWF b = true →
      b.type? = some list_type → isListKind list_type = true →
      (renderItem b list_type mode).isSome = true)
    ∧ (∀ mode l, 2 * sizeOf l ≤ n → blocksWF l = true →
      (renderChildItems mode l).isSome = true) := by
  intro n
  induction n using Nat.strong_induction_on with
  | _ n ih =>
  refine ⟨?_, ?_, ?_, ?_⟩
  · -- convertBlocks
    intro blocks mode hsz hwf
    cases blocks with
    | nil => rw [convertBlocks]; rfl
    | cons b rest =>
      obtain ⟨hwfb, hwfrest⟩ := blocksWF_cons hwf
      cases b with
      | mk t pls hc ch =>
        obtain ⟨tp, htp⟩ := blockWF_type hwfb
        subst htp
        have hszc : sizeOf (Block.mk (some tp) pls hc ch :: rest) =
            1 + sizeOf (Block.mk (some tp) pls hc ch) + sizeOf rest := by simp
        rw [convertBlocks]
        simp only [Block.type?]
        by_cases hpar : tp = "paragraph" ∨ tp = "quote" ∨ tp = "equation" ∨ tp = "code"
        · rw [if_pos hpar]
          have hmem : payloadKinds.contains tp = true := by
            rcases hpar with h | h | h | h <;> (subst h; rfl)
          have hpl := blockWF_payload hwfb hmem
          obtain ⟨pl, hpl2⟩ := Option.isSome_iff_exists.mp hpl
          rw [hpl2]
          have hrec := (ih (2 * sizeOf rest) (by omega)).1 rest mode (le_refl _) hwfrest
          obtain ⟨out, hout⟩ := Option.isSome_iff_exists.mp hrec
          rw [hout]
          rfl
        · rw [if_neg hpar]
          by_cases hlist : isListKind tp = true
          · rw [if_pos hlist]
            have hri := (ih (2 * sizeOf (Block.mk (some tp) pls hc ch)) (by omega)).2.2.1
              (Block.mk (some tp) pls hc ch) tp
              (if mode = "items" then "items" else "paragraphs") (le_refl _) hwfb rfl hlist
            obtain ⟨first, hfirst⟩ := Option.isSome_iff_exists.mp hri
            rw [hfirst]
            exact (ih (2 * sizeOf rest + 1) (by omega)).2.1 tp mode [first] rest
              (le_refl _) hlist hwfrest
          · rw [if_neg hlist]
            exact (ih (2 * sizeOf rest) (by omega)).1 rest mode (le_refl _) hwfrest
  · -- goRun
    intro tp mode acc l hsz hkind hwf
    cases l with
    | nil => rw [goRun]; rfl
    | cons c cs =>
      obtain ⟨hwfc, hwfcs⟩ := blocksWF_cons hwf
      have hszc : sizeOf (c :: cs) = 1 + sizeOf c + sizeOf cs := by simp
      rw [goRun]
      by_cases hct : c.type? = some tp
      · rw [if_pos hct]
        have hri := (ih (2 * sizeOf c) (by omega)).2.2.1 c tp
          (if mode = "items" then "items" else "paragraphs") (le_refl _) hwfc hct hkind
        obtain ⟨s, hs⟩ := Option.isSome_iff_exists.mp hri
        rw [hs]
        exact (ih (2 * sizeOf cs + 1) (by omega)).2.1 tp mode (acc ++ [s]) cs
          (le_refl _) hkind hwfcs
      · rw [if_neg hct]
        have hrec := (ih (2 * sizeOf (c :: cs)) (by omega)).1 (c :: cs) mode (le_refl _) hwf
        obtain ⟨out, hout⟩ := Option.isSome_iff_exists.mp hrec
        rw [hout]
        rfl
  · -- renderItem
    intro b list_type mode hsz hwf htype hkind
    cases b with
    | mk t pls hc ch =>
      rw [Block.type?] at htype
      subst htype
      have hmem : payloadKinds.contains list_type = true := by
        rw [isListKind] at hkind
        rcases Bool.or_eq_true_iff.mp hkind with h | h
        · rw [decide_eq_true_eq.mp h]; rfl
        · rw [decide_eq_true_eq.mp h]; rfl
      have hpl := blockWF_payload hwf hmem
      obtain ⟨pl, hpl2⟩ := Option.isSome_iff_exists.mp hpl
      rw [renderItem, hpl2]
      cases hc with
      | false => rfl
      | true =>
        simp only [eq_self_iff_true, if_true]
        cases hche : ch.isEmpty with
        | true => rfl
        | false =>
          simp only [Bool.false_eq_true, if_false]
          have hszch : sizeOf (Block.mk (some list_type) pls true ch) =
              1 + sizeOf (some list_type) + sizeOf pls + sizeOf true + sizeOf ch := by simp
          have hwfch := blockWF_children hwf
          cases hfind : ch.find? Block.isListItem with
          | some c0 =>
            have hrci := (ih (2 * sizeOf ch) (by omega)).2.2.2 mode ch (le_refl _) hwfch
            obtain ⟨inner, hinner⟩ := Option.isSome_iff_exists.mp hrci
            simp only [hinner]
            rfl
          | none =>
            have hrec := (ih (2 * sizeOf ch) (by omega)).1 ch
              (if mode = "items" then "paragraphs" else mode) (le_refl _) hwfch
            obtain ⟨para, hpara⟩ := Option.isSome_iff_exists.mp hrec
            simp only [hpara]
            by_cases hps : trimStr (joinNl para) ≠ ""
            · rw [if_pos hps]; rfl
            · rw [if_neg hps]; rfl
  · -- renderChildItems
    intro mode l hsz hwf
    cases l with
    | nil => rw [renderChildItems]; rfl
    | cons c cs =>
      obtain ⟨hwfc, hwfcs⟩ := blocksWF_cons hwf
      have hszc : sizeOf (c :: cs) = 1 + sizeOf c + sizeOf cs := by simp
      rw [renderChildItems]
      by_cases hcl : c.isListItem = true
      · rw [if_pos hcl]
        rw [Block.isListItem] at hcl
        have hct : ∃ tp, c.type? = some tp ∧ isListKind tp = true := by
          rcases Bool.or_eq_true_iff.mp hcl with h | h
          · exact ⟨"bulleted_list_item", decide_eq_true_eq.mp h, rfl⟩
          · exact ⟨"numbered_list_item", decide_eq_true_eq.mp h, rfl⟩
        obtain ⟨tp, hct, hkind⟩ := hct
        have hgd : c.type?.getD "" = tp := by rw [hct]; rfl
        rw [hgd]
        have hri := (ih (2 * sizeOf c) (by omega)).2.2.1 c tp mode (le_refl _) hwfc hct hkind
        obtain ⟨s, hs⟩ := Option.isSome_iff_exists.mp hri
        rw [hs]
        have hrest := (ih (2 * sizeOf cs) (by omega)).2.2.2 mode cs (le_refl _) hwfcs
        obtain ⟨out, hout⟩ := Option.isSome_iff_exists.mp hrest
        rw [hout]
        rfl
      · rw [if_neg hcl]
        exact (ih (2 * sizeOf cs) (by omega)).2.2.2 mode cs (le_refl _) hwfcs

/-- C7 (amended): on recursively well-shaped block sequences — every block
carries a `type` tag and the recognized text/list kinds carry their payload
dict — the converter never errors; and a block of any unrecognized kind
(headings included) contributes no output: the conversion of `b :: rest`
equals the conversion of `rest`. -/
theorem convert_blocks_total (blocks : List Block) (mode : String)
    (hwf : blocksWF blocks = true) :
    (convert_blocks_to_latex blocks mode).isSome = true
    ∧ ∀ (b : Block) (rest : List Block) (tp : String),
        b.type? = some tp → tp ∉ payloadKinds →
        convertBlocks (b :: rest) mode = convertBlocks rest mode := by
  constructor
  · rw [convert_blocks_to_latex]
    have h := (convert_measure_aux (2 * sizeOf blocks)).1 blocks mode (le_refl _) hwf
    obtain ⟨out, hout⟩ := Option.isSome_iff_exists.mp h
    rw [hout]
    rfl
  · intro b rest tp htype hnk
    have hnk' : ¬ (tp = "paragraph" ∨ tp = "quote" ∨ tp = "equation" ∨ tp = "code") := by
      intro h
      apply hnk
      rcases h with h | h | h | h <;> (subst h; simp [payloadKinds])
    have hnl : ¬ isListKind tp = true := by
      intro h
      apply hnk
      rw [isListKind] at h
      rcases Bool.or_eq_true_iff.mp h with h | h
      · rw [decide_eq_true_eq.mp h]; simp [payloadKinds]
      · rw [decide_eq_true_eq.mp h]; simp [payloadKinds]
    rw [convertBlocks, htype]
    simp only [hnk', hnl, Bool.false_eq_true, if_false]

/-- Witness for C7: a well-shaped list — a paragraph, an unknown
`"callout"` block and a heading — converts without error. -/
theorem convert_blocks_total_witness :
    blocksWF [paraBlock "hello", Block.mk (some "callout") [] false [],
        h1Block [⟨"Misc", none, none⟩]] = true
    ∧ (convert_blocks_to_latex [paraBlock "hello", Block.mk (some "callout") [] false [],
        h1Block [⟨"Misc", none, none⟩]] "items").isSome = true :=
  ⟨by simp [blocksWF, blockWF, paraBlock, h1Block, payloadKinds],
    (convert_blocks_total [paraBlock "hello", Block.mk (some "callout") [] false [],
      h1Block [⟨"Misc", none, none⟩]] "items"
      (by simp [blocksWF, blockWF, paraBlock, h1Block, payloadKinds])).1⟩

end UpdateCV
